import Mathlib

/-!
Verification of the OCR-to-CSV extraction core (`main3.py`, class `OcrCsvExtractor`)
of the OrderProcessingTool repository.

The pipeline stages are embedded as pure Lean functions over exact rationals
(`ℚ` stands in for Python floats) and `List Char` (for Python `str`):

* `preprocessSize`   — the resize step of `OcrCsvExtractor.preprocess` (lines 43-47),
  with the double-precision arithmetic modelled exactly by `fl53`, rounding to the
  nearest IEEE-754 binary64 value;
* `read_layout`      — `OcrCsvExtractor.read_layout` (lines 61-86), with the external
  OCR engine's raw results supplied as input;
* `group_rows`       — `OcrCsvExtractor.group_rows` (lines 89-114);
* `normalize_cell`   — `OcrCsvExtractor._normalize_cell` (lines 117-122);
* `splitKeyValue`    — `OcrCsvExtractor._split_key_value` (lines 124-135);
* `rows_to_csv`      — `OcrCsvExtractor.rows_to_csv` (lines 138-181), whose final
  merge pass is `mergeAux`;
* `extract_csv_run`  — `OcrCsvExtractor.extract_csv` (lines 184-188), instrumented
  with an OCR-invocation counter, with the external collaborators (image decoding,
  pixel-level preprocessing, OCR) supplied as parameters.

Python's stable `sorted` is embedded as `List.insertionSort` (also stable).
-/

unseal Rat.add Rat.sub Rat.mul Rat.inv

/-- Python strings are modelled as lists of characters. -/
abbrev Str := List Char

/-- Whitespace in the sense of Python's `str.split()` / `str.strip()`:
characters for which `str.isspace()` is true. -/
def isPySpace (c : Char) : Bool :=
  c == ' ' || c == '\t' || c == '\n' || c == '\r' || c == '\x0b' || c == '\x0c' ||
  c == '\x1c' || c == '\x1d' || c == '\x1e' || c == '\x1f' || c == '\x85' ||
  c == ' ' || c == ' ' || (' ' ≤ c && c ≤ ' ') ||
  c == ' ' || c == ' ' || c == ' ' || c == ' ' || c == '　'

/-- Python `str.strip()`: drop whitespace from both ends. -/
def stripC (s : Str) : Str :=
  ((s.dropWhile isPySpace).reverse.dropWhile isPySpace).reverse

/-- Helper for Python `str.split()` (no separator argument): accumulate the current
word in `acc` (reversed) and emit maximal runs of non-whitespace characters. -/
def wordsAux : Str → Str → List Str
  | [], acc => if acc = [] then [] else [acc.reverse]
  | c :: cs, acc =>
    if isPySpace c then
      if acc = [] then wordsAux cs [] else acc.reverse :: wordsAux cs []
    else wordsAux cs (c :: acc)

/-- Python `str.split()` with no arguments: maximal whitespace-free runs. -/
def pyWords (s : Str) : List Str := wordsAux s []

/-- Python `' '.join(ws)`: interleave a single space between the pieces. -/
def joinSp : List Str → Str
  | [] => []
  | [w] => w
  | w :: ws => w ++ ' ' :: joinSp ws

/-- `OcrCsvExtractor._normalize_cell` (main3.py lines 117-122): replace non-breaking
spaces by ordinary spaces, strip the ends, then collapse internal whitespace runs
by splitting into words and rejoining with single spaces. -/
def normalize_cell (t : Str) : Str :=
  joinSp (pyWords (stripC (t.map fun c => if c = ' ' then ' ' else c)))

/-- Test whether `p` is an initial segment of `s` (used to locate substring
occurrences, as Python's `in` operator and `str.split(sep, 1)` do). -/
def matchesAt : Str → Str → Bool
  | [], _ => true
  | _ :: _, [] => false
  | p :: ps, c :: cs => p == c && matchesAt ps cs

/-- Python `text.split(sep, 1)` guarded by `sep in text`: split at the leftmost
occurrence of `sep`, returning `none` when `sep` does not occur. -/
def splitFirstOn (sep : Str) : Str → Option (Str × Str)
  | [] => if sep = [] then some ([], []) else none
  | c :: cs =>
    if matchesAt sep (c :: cs) then some ([], (c :: cs).drop sep.length)
    else (splitFirstOn sep cs).map fun kv => (c :: kv.1, kv.2)

/-- Python `s.endswith(':')`. -/
def endsColon (s : Str) : Bool := s.getLast? == some ':'

/-- Python `s.rstrip(':')`: remove every trailing colon. -/
def rstripColon (s : Str) : Str := (s.reverse.dropWhile (· == ':')).reverse

/-- `OcrCsvExtractor._split_key_value` (main3.py lines 124-135): split on the first
`':'`; failing that, try the separators `" - "`, `" — "`, `"–"` in order; failing
all, return the stripped text paired with an empty value. -/
def splitKeyValue (t : Str) : Str × Str :=
  match splitFirstOn [':'] t with
  | some (k, v) => (stripC k, stripC v)
  | none =>
    match splitFirstOn " - ".data t with
    | some (k, v) => (stripC k, stripC v)
    | none =>
      match splitFirstOn " — ".data t with
      | some (k, v) => (stripC k, stripC v)
      | none =>
        match splitFirstOn "–".data t with
        | some (k, v) => (stripC k, stripC v)
        | none => (stripC t, [])

/-- One OCR detection as assembled by `read_layout` (main3.py lines 76-83):
text, bounding quadrilateral, vertical and horizontal centers, clamped height,
and leftmost x-coordinate.  Coordinates are exact rationals. -/
structure Det where
  text : Str
  box : List (ℚ × ℚ)
  center_y : ℚ
  center_x : ℚ
  height : ℚ
  x_min : ℚ
deriving DecidableEq

/-- Ascending order on the leftmost x-coordinate, the key of the per-row sort
`sorted(current, key=lambda x: x['x_min'])` (main3.py lines 109 and 113). -/
def xminLe (a b : Det) : Prop := a.x_min ≤ b.x_min

instance : DecidableRel xminLe := fun a b => inferInstanceAs (Decidable (a.x_min ≤ b.x_min))

instance : IsTotal Det xminLe := ⟨fun a b => le_total a.x_min b.x_min⟩

instance : IsTrans Det xminLe := ⟨fun _ _ _ h1 h2 => le_trans h1 h2⟩

/-- Python's stable `sorted(row, key=lambda x: x['x_min'])`. -/
def sortRow (r : List Det) : List Det := r.insertionSort xminLe

/-- Python's `sorted(heights)` on rationals. -/
def sortQ (l : List ℚ) : List ℚ := l.insertionSort (· ≤ ·)

/-- Scan loop of `OcrCsvExtractor.group_rows` (main3.py lines 100-113), entered
after the first detection has opened the current row: a detection whose vertical
center lies within `tol` of the running anchor joins the row and drags the anchor
to the midpoint of the old anchor and its own center; otherwise the current row is
closed (sorted by `x_min`) and a fresh row is opened.  The final `if current:`
append of line 112-113 is the base case. -/
def groupLoop (tol : ℚ) : List Det → List Det → ℚ → List (List Det)
  | [], current, _ => if current = [] then [] else [sortRow current]
  | it :: rest, current, lastY =>
    if |it.center_y - lastY| ≤ tol then
      groupLoop tol rest (current ++ [it]) ((lastY + it.center_y) / 2)
    else
      sortRow current :: groupLoop tol rest [it] it.center_y

/-- `OcrCsvExtractor.group_rows` (main3.py lines 89-114): empty input yields no
rows; otherwise the vertical tolerance is `max(6.0, median_h * 0.6)` where
`median_h = sorted(heights)[len(heights)//2]`, and the scan `groupLoop` runs with
the first detection opening the current row. -/
def group_rows (items : List Det) : List (List Det) :=
  match items with
  | [] => []
  | it :: rest =>
    let heights := (it :: rest).map Det.height
    let median_h := (sortQ heights).getD (heights.length / 2) 0
    let y_tol := max 6 (median_h * (3 / 5))
    groupLoop y_tol rest [it] it.center_y

/-- Mean cell length `avg_len` of main3.py line 145: exact rational division of the
total character count by `max(len(texts), 1)`. -/
def avgLen (texts : List Str) : ℚ :=
  ((texts.map List.length).sum : ℚ) / (max texts.length 1 : ℚ)

/-- Per-row classification of `OcrCsvExtractor.rows_to_csv` (main3.py lines
141-166), applied to the already-normalized cell texts of one row: a row of at
least three cells with mean length at most 12 is emitted verbatim; a single cell
goes through the key/value split, the two-cell form being emitted only when the
key is non-empty and the value is non-empty or the key ends with a colon; a
multi-cell row whose first cell ends with a colon becomes a key/value pair whose
value joins the remaining cells with single spaces; anything else is emitted
verbatim.  An empty row (impossible for grouped rows, where Python would raise an
IndexError at `texts[0]`) is emitted verbatim. -/
def classifyRow (texts : List Str) : List Str :=
  if 3 ≤ texts.length ∧ avgLen texts ≤ 12 then texts
  else
    match texts with
    | [] => []
    | [t] =>
      let kv := splitKeyValue t
      if kv.1 ≠ [] ∧ (kv.2 ≠ [] ∨ endsColon kv.1) then [rstripColon kv.1, kv.2]
      else [t]
    | first :: rest =>
      if endsColon first ∧ 2 ≤ (first :: rest).length then
        [rstripColon first, joinSp rest]
      else first :: rest

/-- Section-merge pass of `OcrCsvExtractor.rows_to_csv` (main3.py lines 168-181),
with the `skip_next` flag made explicit: a single-cell row followed by a row of at
least three cells is replaced by one merged row `["[Section] " + title] ++ next`,
and the flag makes the following iteration consume the merged-in row. -/
def mergeAux : Bool → List (List Str) → List (List Str)
  | _, [] => []
  | true, _ :: rest => mergeAux false rest
  | false, r :: rest =>
    if r.length = 1 ∧ rest ≠ [] ∧ 3 ≤ (rest.headD []).length then
      (("[Section] ".data ++ r.headD []) :: rest.headD []) :: mergeAux true rest
    else r :: mergeAux false rest

/-- `OcrCsvExtractor.rows_to_csv` (main3.py lines 138-181): normalize every cell,
classify each row, then run the section-merge pass. -/
def rows_to_csv (rows : List (List Det)) : List (List Str) :=
  mergeAux false (rows.map fun row => classifyRow (row.map fun it => normalize_cell it.text))

/-- Lexicographic reading order on detections, the key tuple
`(d['center_y'], d['x_min'])` of the sort at main3.py line 85. -/
def detLex (a b : Det) : Prop :=
  a.center_y < b.center_y ∨ (a.center_y = b.center_y ∧ a.x_min ≤ b.x_min)

instance : DecidableRel detLex := fun a b =>
  inferInstanceAs (Decidable (a.center_y < b.center_y ∨ (a.center_y = b.center_y ∧ a.x_min ≤ b.x_min)))

/-- `OcrCsvExtractor._box_center` (main3.py lines 50-54): arithmetic mean of the
four corner points (the code always divides by 4). -/
def box_center (box : List (ℚ × ℚ)) : ℚ × ℚ :=
  ((box.map Prod.fst).sum / 4, (box.map Prod.snd).sum / 4)

/-- `OcrCsvExtractor._box_height` (main3.py lines 56-59): average of the two
vertical edge lengths of the quadrilateral. -/
def box_height (box : List (ℚ × ℚ)) : ℚ :=
  (|(box.getD 0 (0, 0)).2 - (box.getD 3 (0, 0)).2| +
   |(box.getD 1 (0, 0)).2 - (box.getD 2 (0, 0)).2|) / 2

/-- Python `min(p[0] for p in box)` (main3.py line 75); a raw OCR box is never
empty, so the `[]` case is arbitrary. -/
def box_xmin (box : List (ℚ × ℚ)) : ℚ :=
  match box with
  | [] => 0
  | p :: ps => ps.foldl (fun m q => min m q.1) p.1

/-- `OcrCsvExtractor.read_layout` (main3.py lines 61-86) downstream of the OCR
call: each raw `(box, text, confidence)` triple with non-blank trimmed text
becomes a detection with derived geometry (height clamped to at least 1), and the
result is stably sorted by `(center_y, x_min)`. -/
def read_layout (results : List (List (ℚ × ℚ) × Str × ℚ)) : List Det :=
  (results.filterMap fun r =>
    if stripC r.2.1 = [] then none
    else
      some { text := stripC r.2.1
             box := r.1
             center_y := (box_center r.1).2
             center_x := (box_center r.1).1
             height := max (box_height r.1) 1
             x_min := box_xmin r.1 }).insertionSort detLex

/-- Round a rational to the nearest integer, ties to even — the rounding
direction of IEEE-754 binary64 arithmetic, which Python floats use. -/
def roundNE (x : ℚ) : ℤ :=
  if x - ⌊x⌋ < 1 / 2 then ⌊x⌋
  else if (1 / 2 : ℚ) < x - ⌊x⌋ then ⌊x⌋ + 1
  else if ⌊x⌋ % 2 = 0 then ⌊x⌋ else ⌊x⌋ + 1

/-- Binary exponent of a rational `q ≥ 1` by repeated halving: the `e` with
`2^e ≤ q < 2^(e+1)` whenever `1 ≤ q < 2^fuel`. -/
def qExpAux : ℕ → ℚ → ℕ
  | 0, _ => 0
  | fuel + 1, q => if q < 2 then 0 else qExpAux fuel (q / 2) + 1

/-- Binary exponent with fuel 64, enough for every value the resize
computation produces. -/
def qExp (q : ℚ) : ℕ := qExpAux 64 q

/-- Rounding of a rational `q ≥ 1` to the nearest IEEE-754 binary64 double:
the significand `q * 2^(52 - e)` lies in `[2^52, 2^53)` and is rounded to an
integer, nearest, ties to even.  Values below 1 are returned unchanged; the
modelled resize computation never produces them. -/
def fl53 (q : ℚ) : ℚ :=
  if 1 ≤ q then ((roundNE (q * 2 ^ (52 - qExp q)) : ℤ) : ℚ) / 2 ^ (52 - qExp q)
  else q

/-- Resize step of `OcrCsvExtractor.preprocess` (main3.py lines 43-47) on the
image dimensions `(h, w)`, with the double-precision arithmetic of
`scale = 1400.0 / max(h, w)` followed by `int(h * scale)` and `int(w * scale)`
modelled exactly: the integer inputs convert to doubles exactly (all are far
below `2^53`), the division and each multiplication round once to the nearest
binary64 value (`fl53`), and Python `int(...)` truncates, which is the floor
for these positive values.  When the larger dimension is at least 1400 the
dimensions are untouched. -/
def preprocessSize (h w : ℕ) : ℕ × ℕ :=
  if max h w < 1400 then
    let scale : ℚ := fl53 (1400 / ((max h w : ℕ) : ℚ))
    ((Int.floor (fl53 ((h : ℚ) * scale))).toNat, (Int.floor (fl53 ((w : ℚ) * scale))).toNat)
  else (h, w)

/-- A decoded raster image (content is irrelevant to the properties below). -/
def Img : Type := List (List ℕ)

/-- Failure kinds of the pipeline: `imageLoad` is the error raised by
`preprocess` when `cv2.imread` returns `None` (main3.py lines 31-33, the
`ImageLoadError` of the design), kept distinct from a failure of the OCR
engine itself. -/
inductive PipeError where
  | imageLoad
  | ocrFail
deriving DecidableEq

/-- `OcrCsvExtractor.extract_csv` (main3.py lines 184-188) with its external
collaborators made explicit: `decoded` is the result of image decoding (`none`
when the file cannot be decoded), `pre` the pixel-level preprocessing, and `ocr`
the OCR engine.  The second component counts OCR invocations during the run. -/
def extract_csv_run (decoded : Option Img) (pre : Img → Img)
    (ocr : Img → List (List (ℚ × ℚ) × Str × ℚ)) :
    Except PipeError (List (List Str)) × ℕ :=
  match decoded with
  | none => (Except.error PipeError.imageLoad, 0)
  | some img => (Except.ok (rows_to_csv (group_rows (read_layout (ocr (pre img))))), 1)

/-- Concrete detection with the given text, vertical center, height and leftmost
x-coordinate (box and horizontal center are irrelevant to the grouping and
assembly stages). -/
def mkDet (t : Str) (cy h xm : ℚ) : Det :=
  { text := t, box := [], center_y := cy, center_x := 0, height := h, x_min := xm }

/-- Mean vertical center of a row of detections. -/
def meanCY (r : List Det) : ℚ :=
  (r.map Det.center_y).sum / (r.length : ℚ)

/-- Ascending order on vertical centers. -/
def cyLe (a b : Det) : Prop := a.center_y ≤ b.center_y

/-- Statistical median of a list of rationals as the specification uses the
word: middle element of the sorted list for odd length, mean of the two middle
elements for even length. -/
def medianQ (l : List ℚ) : ℚ :=
  let s := sortQ l
  if l.length % 2 = 1 then s.getD (l.length / 2) 0
  else (s.getD (l.length / 2 - 1) 0 + s.getD (l.length / 2) 0) / 2

/-- Upper median: the element at index `len // 2` of the sorted list, which is
what `group_rows` actually computes (main3.py line 96); for odd length this is
the statistical median, for even length the upper of the two middle elements. -/
def upperMedian (l : List ℚ) : ℚ := (sortQ l).getD (l.length / 2) 0

/-- One step of the grouping scan as the specification describes it (§4.3):
state is (closed rows, open row, running anchor); a detection within tolerance
of the anchor joins the open row and the anchor moves to the average of the old
anchor and the detection's center; otherwise the open row is closed. -/
def groupStep (tol : ℚ) (st : List (List Det) × List Det × ℚ) (d : Det) :
    List (List Det) × List Det × ℚ :=
  if |d.center_y - st.2.2| ≤ tol then (st.1, st.2.1 ++ [d], (st.2.2 + d.center_y) / 2)
  else (st.1 ++ [sortRow st.2.1], [d], d.center_y)

/-- Grouping scan as a stateful fold with an explicit tolerance parameter, the
reference formulation of §4.3/§9 of the specification: the first detection opens
the row, the rest are folded through `groupStep`, and the final open row, if
any, is closed and appended. -/
def groupRowsWithTol (tol : ℚ) : List Det → List (List Det)
  | [] => []
  | it :: rest =>
    let st := rest.foldl (groupStep tol) ([], [it], it.center_y)
    if st.2.1 = [] then st.1 else st.1 ++ [sortRow st.2.1]

/-- Single-cell assembly rule exactly as claim C3 words it: split on the first
`':'`, else try `" - "`, `" — "`, `"–"` in order; when a split succeeds and the
value is non-empty or the key ends with `':'`, emit the two-cell row, otherwise
the original cell — with no requirement that the key be non-empty. -/
def trySepsClaim (t : Str) : List Str → List Str
  | [] => [t]
  | sep :: seps =>
    match splitFirstOn sep t with
    | some (k, v) =>
      if stripC v ≠ [] ∨ endsColon (stripC k) then [rstripColon (stripC k), stripC v]
      else [t]
    | none => trySepsClaim t seps

/-- Single-cell assembly rule exactly as claim C3 words it, entry point: the
colon split is attempted first, the dash separators only when no colon occurs. -/
def singleCellClaim (t : Str) : List Str :=
  match splitFirstOn [':'] t with
  | some (k, v) =>
    if stripC v ≠ [] ∨ endsColon (stripC k) then [rstripColon (stripC k), stripC v]
    else [t]
  | none => trySepsClaim t [" - ".data, " — ".data, "–".data]

/-- Single-cell assembly rule as amended: a successful split is emitted as a
two-cell row only when additionally the key is non-empty. -/
def trySepsAmended (t : Str) : List Str → List Str
  | [] => [t]
  | sep :: seps =>
    match splitFirstOn sep t with
    | some (k, v) =>
      if stripC k ≠ [] ∧ (stripC v ≠ [] ∨ endsColon (stripC k)) then
        [rstripColon (stripC k), stripC v]
      else [t]
    | none => trySepsAmended t seps

/-- Entry point of the amended single-cell assembly rule. -/
def singleCellAmended (t : Str) : List Str :=
  match splitFirstOn [':'] t with
  | some (k, v) =>
    if stripC k ≠ [] ∧ (stripC v ≠ [] ∨ endsColon (stripC k)) then
      [rstripColon (stripC k), stripC v]
    else [t]
  | none => trySepsAmended t [" - ".data, " — ".data, "–".data]

/-- Section-merge pass as claim C6 words it: a forward scan with one-row
lookahead that replaces a single-cell row followed by a row of at least three
cells with one merged row and advances past both. -/
def mergeSpec : List (List Str) → List (List Str)
  | [] => []
  | [r] => [r]
  | r :: next :: t =>
    if r.length = 1 ∧ 3 ≤ next.length then
      (("[Section] ".data ++ r.headD []) :: next) :: mergeSpec t
    else r :: mergeSpec (next :: t)

lemma sortRow_perm (r : List Det) : (sortRow r).Perm r :=
  List.perm_insertionSort xminLe r

lemma sortRow_ne_nil {r : List Det} (h : r ≠ []) : sortRow r ≠ [] := by
  intro hs
  have hp := sortRow_perm r
  rw [hs] at hp
  exact h hp.symm.eq_nil

lemma mem_sortRow {a : Det} {r : List Det} : a ∈ sortRow r ↔ a ∈ r :=
  (sortRow_perm r).mem_iff

lemma sortRow_sorted (r : List Det) : List.Pairwise xminLe (sortRow r) :=
  List.sorted_insertionSort xminLe r

lemma groupLoop_flatten_perm (tol : ℚ) (rest : List Det) :
    ∀ (current : List Det) (lastY : ℚ),
      (groupLoop tol rest current lastY).flatten.Perm (current ++ rest) := by
  induction rest with
  | nil =>
    intro current lastY
    by_cases h : current = []
    · simp [groupLoop, h]
    · simpa [groupLoop, h] using sortRow_perm current
  | cons it rest ih =>
    intro current lastY
    by_cases h : |it.center_y - lastY| ≤ tol
    · rw [groupLoop, if_pos h]
      have := ih (current ++ [it]) ((lastY + it.center_y) / 2)
      simpa [List.append_assoc] using this
    · rw [groupLoop, if_neg h]
      simp only [List.flatten_cons]
      have := (sortRow_perm current).append (ih [it] it.center_y)
      simpa using this

lemma group_rows_flatten_perm (items : List Det) :
    (group_rows items).flatten.Perm items := by
  cases items with
  | nil => simp [group_rows]
  | cons it rest =>
    rw [group_rows]
    simpa using groupLoop_flatten_perm _ rest [it] it.center_y

/-- C1: for every detection sequence, the rows returned by `group_rows` partition
the input exactly — the concatenation of the output rows is a permutation of the
input, so every detection appears in exactly one row, none dropped or duplicated —
and the empty sequence yields the empty row sequence. -/
theorem group_rows_partition (items : List Det) :
    (group_rows items).flatten.Perm items ∧ group_rows ([] : List Det) = [] :=
  ⟨group_rows_flatten_perm items, rfl⟩

lemma groupLoop_rows_ne_nil (tol : ℚ) (rest : List Det) :
    ∀ (current : List Det) (lastY : ℚ), current ≠ [] →
      ∀ r ∈ groupLoop tol rest current lastY, r ≠ [] := by
  induction rest with
  | nil =>
    intro current lastY hcur r hr
    rw [groupLoop, if_neg hcur] at hr
    simp only [List.mem_singleton] at hr
    exact hr ▸ sortRow_ne_nil hcur
  | cons it rest ih =>
    intro current lastY hcur r hr
    by_cases h : |it.center_y - lastY| ≤ tol
    · rw [groupLoop, if_pos h] at hr
      exact ih (current ++ [it]) _ (by simp) r hr
    · rw [groupLoop, if_neg h] at hr
      rcases List.mem_cons.mp hr with h1 | h2
      · exact h1 ▸ sortRow_ne_nil hcur
      · exact ih [it] _ (by simp) r h2

lemma group_rows_ne_nil (items : List Det) : ∀ r ∈ group_rows items, r ≠ [] := by
  cases items with
  | nil => simp [group_rows]
  | cons it rest =>
    rw [group_rows]
    exact groupLoop_rows_ne_nil _ rest [it] it.center_y (by simp)

lemma classifyRow_ne_nil {texts : List Str} (h : texts ≠ []) : classifyRow texts ≠ [] := by
  rw [classifyRow.eq_def]
  split
  · exact h
  · match texts with
    | [] => exact absurd rfl h
    | [t] => dsimp only; split <;> simp
    | a :: b :: rest => dsimp only; split <;> simp

lemma mergeAux_ne_nil (rows : List (List Str)) :
    ∀ (b : Bool), (∀ r ∈ rows, r ≠ []) → ∀ c ∈ mergeAux b rows, c ≠ [] := by
  induction rows with
  | nil => intro b _ c hc; simp [mergeAux] at hc
  | cons r rest ih =>
    intro b hr c hc
    cases b with
    | true =>
      rw [mergeAux] at hc
      exact ih false (fun x hx => hr x (List.mem_cons_of_mem _ hx)) c hc
    | false =>
      rw [mergeAux] at hc
      split at hc
      · rcases List.mem_cons.mp hc with h1 | h2
        · simp [h1]
        · exact ih true (fun x hx => hr x (List.mem_cons_of_mem _ hx)) c h2
      · rcases List.mem_cons.mp hc with h1 | h2
        · exact h1 ▸ hr r (List.mem_cons_self r rest)
        · exact ih false (fun x hx => hr x (List.mem_cons_of_mem _ hx)) c h2

/-- C10: every row produced by `group_rows` contains at least one detection, and
consequently every CSV row emitted by `rows_to_csv` on grouped rows — including
rows produced by the section-merge pass — contains at least one cell. -/
theorem grouped_csv_rows_nonempty (items : List Det) :
    (∀ r ∈ group_rows items, r ≠ []) ∧
    (∀ c ∈ rows_to_csv (group_rows items), c ≠ []) := by
  refine ⟨group_rows_ne_nil items, ?_⟩
  intro c hc
  rw [rows_to_csv] at hc
  refine mergeAux_ne_nil _ false ?_ c hc
  intro x hx
  rcases List.mem_map.mp hx with ⟨row, hrow, hmap⟩
  have hne := group_rows_ne_nil items row hrow
  refine hmap ▸ classifyRow_ne_nil ?_
  simpa using hne

/-- Witness for C10 at a concrete one-detection input: the single grouped row and
the single emitted CSV row are both non-empty. -/
theorem grouped_csv_rows_nonempty_witness :
    ([mkDet "a".data 0 10 0] : List Det) ≠ [] ∧ (["a".data] : List Str) ≠ [] :=
  ⟨(grouped_csv_rows_nonempty [mkDet "a".data 0 10 0]).1 [mkDet "a".data 0 10 0] (by decide),
   (grouped_csv_rows_nonempty [mkDet "a".data 0 10 0]).2 ["a".data] (by decide)⟩

lemma sum_le_length_mul (l : List ℚ) (b : ℚ) (h : ∀ a ∈ l, a ≤ b) :
    l.sum ≤ (l.length : ℚ) * b := by
  induction l with
  | nil => simp
  | cons x xs ih =>
    have hx := h x (List.mem_cons_self x xs)
    have hxs := ih fun a ha => h a (List.mem_cons_of_mem _ ha)
    simp only [List.sum_cons, List.length_cons]
    push_cast
    nlinarith

lemma length_mul_le_sum (l : List ℚ) (b : ℚ) (h : ∀ a ∈ l, b ≤ a) :
    (l.length : ℚ) * b ≤ l.sum := by
  induction l with
  | nil => simp
  | cons x xs ih =>
    have hx := h x (List.mem_cons_self x xs)
    have hxs := ih fun a ha => h a (List.mem_cons_of_mem _ ha)
    simp only [List.sum_cons, List.length_cons]
    push_cast
    nlinarith

lemma meanCY_le {r : List Det} (hne : r ≠ []) {b : ℚ} (h : ∀ a ∈ r, a.center_y ≤ b) :
    meanCY r ≤ b := by
  have hlen : (0 : ℚ) < (r.length : ℚ) := by
    exact_mod_cast List.length_pos.mpr hne
  rw [meanCY, div_le_iff₀ hlen]
  have hs := sum_le_length_mul (r.map Det.center_y) b
    (fun a ha => by rcases List.mem_map.mp ha with ⟨d, hd, rfl⟩; exact h d hd)
  simpa [mul_comm] using hs

lemma le_meanCY {r : List Det} (hne : r ≠ []) {b : ℚ} (h : ∀ a ∈ r, b ≤ a.center_y) :
    b ≤ meanCY r := by
  have hlen : (0 : ℚ) < (r.length : ℚ) := by
    exact_mod_cast List.length_pos.mpr hne
  rw [meanCY, le_div_iff₀ hlen]
  have hs := length_mul_le_sum (r.map Det.center_y) b
    (fun a ha => by rcases List.mem_map.mp ha with ⟨d, hd, rfl⟩; exact h d hd)
  simpa [mul_comm] using hs

lemma meanCY_mono {r₁ r₂ : List Det} (h1 : r₁ ≠ []) (h2 : r₂ ≠ [])
    (h : ∀ a ∈ r₁, ∀ b ∈ r₂, a.center_y ≤ b.center_y) : meanCY r₁ ≤ meanCY r₂ :=
  le_meanCY h2 fun b hb => meanCY_le h1 fun a ha => h a ha b hb

lemma groupLoop_pairwise_below (tol : ℚ) (rest : List Det) :
    ∀ (current : List Det) (lastY : ℚ),
      List.Pairwise cyLe (current ++ rest) →
      List.Pairwise (fun r₁ r₂ => ∀ a ∈ r₁, ∀ b ∈ r₂, a.center_y ≤ b.center_y)
        (groupLoop tol rest current lastY) := by
  induction rest with
  | nil =>
    intro current lastY _
    by_cases h : current = [] <;> simp [groupLoop, h]
  | cons it rest ih =>
    intro current lastY hp
    by_cases h : |it.center_y - lastY| ≤ tol
    · rw [groupLoop, if_pos h]
      apply ih
      simpa [List.append_assoc] using hp
    · rw [groupLoop, if_neg h]
      have hsplit := List.pairwise_append.mp hp
      refine List.pairwise_cons.mpr ⟨?_, ih [it] it.center_y (by simpa using hsplit.2.1)⟩
      intro r' hr' a ha b hb
      have hbmem : b ∈ ([it] ++ rest) := by
        have hperm := groupLoop_flatten_perm tol rest [it] it.center_y
        exact hperm.mem_iff.mp (List.mem_flatten.mpr ⟨r', hr', hb⟩)
      exact hsplit.2.2 a (mem_sortRow.mp ha) b (by simpa using hbmem)

lemma groupLoop_rows_sorted (tol : ℚ) (rest : List Det) :
    ∀ (current : List Det) (lastY : ℚ),
      ∀ r ∈ groupLoop tol rest current lastY, List.Pairwise xminLe r := by
  induction rest with
  | nil =>
    intro current lastY r hr
    by_cases h : current = []
    · simp [groupLoop, h] at hr
    · rw [groupLoop, if_neg h] at hr
      simp only [List.mem_singleton] at hr
      exact hr ▸ sortRow_sorted current
  | cons it rest ih =>
    intro current lastY r hr
    by_cases h : |it.center_y - lastY| ≤ tol
    · rw [groupLoop, if_pos h] at hr
      exact ih _ _ r hr
    · rw [groupLoop, if_neg h] at hr
      rcases List.mem_cons.mp hr with h1 | h2
      · exact h1 ▸ sortRow_sorted current
      · exact ih _ _ r h2

/-- C2: for every detection sequence sorted ascending by `(centerY, xMin)` — the
order `read_layout` produces — the rows of `group_rows` are ordered by ascending
mean vertical center, and within each row the detections are ordered by
ascending `x_min`. -/
theorem group_rows_ordering (items : List Det) (hs : List.Pairwise detLex items) :
    List.Pairwise (fun r₁ r₂ => meanCY r₁ ≤ meanCY r₂) (group_rows items) ∧
    ∀ r ∈ group_rows items, List.Pairwise xminLe r := by
  have hcy : List.Pairwise cyLe items :=
    hs.imp fun hab => hab.elim le_of_lt fun he => le_of_eq he.1
  constructor
  · have hb : List.Pairwise (fun r₁ r₂ => ∀ a ∈ r₁, ∀ b ∈ r₂, a.center_y ≤ b.center_y)
        (group_rows items) := by
      cases items with
      | nil => simp [group_rows]
      | cons it rest =>
        rw [group_rows]
        exact groupLoop_pairwise_below _ rest [it] it.center_y (by simpa using hcy)
    refine List.Pairwise.imp_of_mem ?_ hb
    intro r₁ r₂ h1 h2 hrel
    exact meanCY_mono (group_rows_ne_nil items r₁ h1) (group_rows_ne_nil items r₂ h2) hrel
  · cases items with
    | nil => simp [group_rows]
    | cons it rest =>
      rw [group_rows]
      exact groupLoop_rows_sorted _ rest [it] it.center_y

/-- Witness for C2 at a concrete sorted two-detection input, which groups into
two rows: the row means are ordered and the first row is sorted by `x_min`. -/
theorem group_rows_ordering_witness :
    List.Pairwise (fun r₁ r₂ => meanCY r₁ ≤ meanCY r₂)
      (group_rows [mkDet "a".data 0 10 0, mkDet "b".data 100 10 1]) ∧
    List.Pairwise xminLe [mkDet "a".data 0 10 0] :=
  ⟨(group_rows_ordering [mkDet "a".data 0 10 0, mkDet "b".data 100 10 1] (by decide)).1,
   (group_rows_ordering [mkDet "a".data 0 10 0, mkDet "b".data 100 10 1] (by decide)).2
     [mkDet "a".data 0 10 0] (by decide)⟩

/-- C5: during the grouping scan, a subsequent detection joins the current row
exactly when its vertical center lies within the tolerance of the running anchor
(boundary included), and on a join the anchor becomes the average of the old
anchor and the detection's center rather than being reset; otherwise the current
row is closed and the anchor resets to the detection's center. -/
theorem groupLoop_step (tol lastY : ℚ) (current : List Det) (it : Det) (rest : List Det) :
    (|it.center_y - lastY| ≤ tol →
      groupLoop tol (it :: rest) current lastY =
        groupLoop tol rest (current ++ [it]) ((lastY + it.center_y) / 2)) ∧
    (¬ |it.center_y - lastY| ≤ tol →
      groupLoop tol (it :: rest) current lastY =
        sortRow current :: groupLoop tol rest [it] it.center_y) :=
  ⟨fun h => by rw [groupLoop, if_pos h], fun h => by rw [groupLoop, if_neg h]⟩

/-- Witness for C5: a detection exactly at the tolerance boundary (distance 6,
tolerance 6) joins and moves the anchor to the midpoint 3; a detection at
distance 7 does not join. -/
theorem groupLoop_step_witness :
    (groupLoop 6 [mkDet "x".data 6 10 0] [] 0 =
      groupLoop 6 [] ([] ++ [mkDet "x".data 6 10 0]) ((0 + (mkDet "x".data 6 10 0).center_y) / 2)) ∧
    (groupLoop 6 [mkDet "y".data 7 10 0] [] 0 =
      sortRow [] :: groupLoop 6 [] [mkDet "y".data 7 10 0] (mkDet "y".data 7 10 0).center_y) :=
  ⟨(groupLoop_step 6 0 [] (mkDet "x".data 6 10 0) []).1 (by decide),
   (groupLoop_step 6 0 [] (mkDet "y".data 7 10 0) []).2 (by decide)⟩

lemma mergeAux_eq_mergeSpec : ∀ (rows : List (List Str)), mergeAux false rows = mergeSpec rows
  | [] => rfl
  | [r] => by simp [mergeAux, mergeSpec]
  | r :: next :: t => by
    rw [mergeSpec]
    by_cases hc : r.length = 1 ∧ 3 ≤ next.length
    · rw [mergeAux, if_pos ⟨hc.1, by simp, by simpa using hc.2⟩, if_pos hc]
      rw [show mergeAux true (next :: t) = mergeAux false t from by rw [mergeAux]]
      simp [mergeAux_eq_mergeSpec t]
    · rw [mergeAux, if_neg (by simpa using fun h1 => not_le.mp fun h3 => hc ⟨h1, h3⟩), if_neg hc]
      rw [mergeAux_eq_mergeSpec (next :: t)]

/-- C6: the section-merge pass is a single forward scan with one-row lookahead —
a single-cell row immediately followed by a row of at least three cells is
replaced by the one merged row and the scan advances past both, every other row
passing through unchanged; in particular `[["Title"], ["A","B","C"]]` becomes
`[["[Section] Title","A","B","C"]]`. -/
theorem merge_sections_spec :
    (∀ csvRows : List (List Str), mergeAux false csvRows = mergeSpec csvRows) ∧
    mergeAux false [["Title".data], ["A".data, "B".data, "C".data]] =
      [["[Section] Title".data, "A".data, "B".data, "C".data]] :=
  ⟨mergeAux_eq_mergeSpec, by decide⟩

lemma roundNE_error (x : ℚ) : |((roundNE x : ℤ) : ℚ) - x| ≤ 1 / 2 := by
  have h0 : ((⌊x⌋ : ℤ) : ℚ) ≤ x := Int.floor_le x
  have h1 : x < ⌊x⌋ + 1 := Int.lt_floor_add_one x
  rw [roundNE]
  split_ifs with hlt hgt hev
  · rw [abs_sub_comm, abs_of_nonneg (by linarith)]
    linarith
  · have he : ((⌊x⌋ + 1 : ℤ) : ℚ) - x = ((⌊x⌋ : ℤ) : ℚ) + 1 - x := by push_cast; ring
    rw [he, abs_of_nonneg (by linarith)]
    linarith
  · have heq : x - ⌊x⌋ = 1 / 2 := le_antisymm (not_lt.mp hgt) (not_lt.mp hlt)
    rw [abs_sub_comm, abs_of_nonneg (by linarith)]
    linarith
  · have heq : x - ⌊x⌋ = 1 / 2 := le_antisymm (not_lt.mp hgt) (not_lt.mp hlt)
    have he : ((⌊x⌋ + 1 : ℤ) : ℚ) - x = ((⌊x⌋ : ℤ) : ℚ) + 1 - x := by push_cast; ring
    rw [he, abs_of_nonneg (by linarith)]
    linarith

lemma qExpAux_bracket : ∀ (fuel : ℕ) (q : ℚ), 1 ≤ q → q < 2 ^ fuel →
    (2 : ℚ) ^ qExpAux fuel q ≤ q ∧ q < 2 ^ (qExpAux fuel q + 1) := by
  intro fuel
  induction fuel with
  | zero =>
    intro q hq1 hq2
    rw [pow_zero] at hq2
    exact absurd (lt_of_le_of_lt hq1 hq2) (lt_irrefl 1)
  | succ fuel ih =>
    intro q hq1 hq2
    rw [qExpAux]
    by_cases hq : q < 2
    · rw [if_pos hq]
      exact ⟨by simpa using hq1, by simpa using hq⟩
    · rw [if_neg hq]
      push_neg at hq
      have hhalf1 : 1 ≤ q / 2 := by
        rw [le_div_iff₀ (by norm_num : (0:ℚ) < 2)]
        linarith
      have hhalf2 : q / 2 < 2 ^ fuel := by
        rw [div_lt_iff₀ (by norm_num : (0:ℚ) < 2)]
        rw [pow_succ] at hq2
        linarith
      obtain ⟨ih1, ih2⟩ := ih (q / 2) hhalf1 hhalf2
      rw [le_div_iff₀ (by norm_num : (0:ℚ) < 2)] at ih1
      rw [div_lt_iff₀ (by norm_num : (0:ℚ) < 2)] at ih2
      constructor
      · rw [pow_succ]
        exact ih1
      · rw [pow_succ]
        exact ih2

lemma qExp_le_ten {q : ℚ} (h1 : 1 ≤ q) (h2 : q < 2048) : qExp q ≤ 10 := by
  have hb := qExpAux_bracket 64 q h1 (lt_of_lt_of_le h2 (by norm_num))
  by_contra hgt
  push_neg at hgt
  have hpow : (2 : ℚ) ^ 11 ≤ 2 ^ qExp q := pow_le_pow_right₀ (by norm_num) hgt
  have h2048 : (2048 : ℚ) ≤ q := le_trans (le_trans (by norm_num) hpow) hb.1
  linarith

lemma fl53_error {q : ℚ} (hq : 1 ≤ q) (he : qExp q ≤ 10) : |fl53 q - q| ≤ 1 / 2 ^ 43 := by
  rw [fl53, if_pos hq]
  have hk : 42 ≤ 52 - qExp q := by omega
  have hpk : (0 : ℚ) < 2 ^ (52 - qExp q) := by positivity
  have hdiff : ((roundNE (q * 2 ^ (52 - qExp q)) : ℤ) : ℚ) / 2 ^ (52 - qExp q) - q =
      (((roundNE (q * 2 ^ (52 - qExp q)) : ℤ) : ℚ) - q * 2 ^ (52 - qExp q)) /
        2 ^ (52 - qExp q) := by
    field_simp
    ring
  rw [hdiff, abs_div, abs_of_pos hpk]
  calc |((roundNE (q * 2 ^ (52 - qExp q)) : ℤ) : ℚ) - q * 2 ^ (52 - qExp q)| /
        2 ^ (52 - qExp q)
      ≤ (1 / 2) / 2 ^ (52 - qExp q) := by
        have hr := roundNE_error (q * 2 ^ (52 - qExp q))
        gcongr
    _ ≤ (1 / 2) / 2 ^ 42 := by
        gcongr
        norm_num
    _ = 1 / 2 ^ 43 := by
        rw [div_div]
        norm_num

/-- Absolute error of double rounding for values in `[1, 2048)`, and the
resulting floor of the twice-rounded larger-axis computation: for every larger
dimension `m` below 1400, `int(m * (1400.0 / m))` is 1399 or 1400. -/
lemma resize_big_axis (m : ℕ) (h1 : 0 < m) (h2 : m < 1400) :
    Int.floor (fl53 ((m : ℚ) * fl53 (1400 / (m : ℚ)))) = 1399 ∨
    Int.floor (fl53 ((m : ℚ) * fl53 (1400 / (m : ℚ)))) = 1400 := by
  have hm1 : (1 : ℚ) ≤ (m : ℚ) := by exact_mod_cast h1
  have hm2 : (m : ℚ) ≤ 1399 := by exact_mod_cast (by omega : m ≤ 1399)
  have hm0 : (0 : ℚ) < (m : ℚ) := by linarith
  have hq1 : 1 ≤ 1400 / (m : ℚ) := by
    rw [le_div_iff₀ hm0]
    linarith
  have hqle : 1400 / (m : ℚ) ≤ 1400 := by
    rw [div_le_iff₀ hm0]
    nlinarith
  have hserr := fl53_error hq1 (qExp_le_ten hq1 (by linarith))
  have hmq : (m : ℚ) * (1400 / (m : ℚ)) = 1400 := by field_simp
  have hperr : |(m : ℚ) * fl53 (1400 / (m : ℚ)) - 1400| ≤ 1399 / 2 ^ 43 := by
    have hd : (m : ℚ) * fl53 (1400 / (m : ℚ)) - 1400 =
        (m : ℚ) * (fl53 (1400 / (m : ℚ)) - 1400 / (m : ℚ)) := by
      rw [mul_sub, hmq]
    rw [hd, abs_mul, abs_of_pos hm0]
    calc (m : ℚ) * |fl53 (1400 / (m : ℚ)) - 1400 / (m : ℚ)|
        ≤ 1399 * (1 / 2 ^ 43) := mul_le_mul hm2 hserr (abs_nonneg _) (by norm_num)
      _ = 1399 / 2 ^ 43 := by ring
  obtain ⟨hpl, hpu⟩ := abs_le.mp hperr
  have hsm : (1399 : ℚ) / 2 ^ 43 ≤ 1 := by norm_num
  have hp1 : 1 ≤ (m : ℚ) * fl53 (1400 / (m : ℚ)) := by linarith
  have hplt : (m : ℚ) * fl53 (1400 / (m : ℚ)) < 2048 := by linarith
  have hrerr := fl53_error hp1 (qExp_le_ten hp1 hplt)
  obtain ⟨hrl, hru⟩ := abs_le.mp hrerr
  have h43 : (1 : ℚ) / 2 ^ 43 + 1399 / 2 ^ 43 < 1 / 2 := by norm_num
  by_cases hc : fl53 ((m : ℚ) * fl53 (1400 / (m : ℚ))) < 1400
  · left
    rw [Int.floor_eq_iff]
    constructor
    · push_cast
      linarith
    · push_cast
      linarith
  · right
    push_neg at hc
    rw [Int.floor_eq_iff]
    constructor
    · push_cast
      linarith
    · push_cast
      linarith

/-- C7 counterexample: a decoded 50 by 79 image has its larger dimension below
1400, yet the resize step produces 1399 on the larger axis, not exactly 1400 —
`1400.0 / 79` rounds to a double slightly below the true quotient, and
`79 * scale` rounds to just under 1400, which `int(...)` truncates to 1399. -/
theorem preprocess_resize_counterexample :
    max 50 79 < 1400 ∧
    max (preprocessSize 50 79).1 (preprocessSize 50 79).2 ≠ 1400 :=
  ⟨by decide, by decide⟩

/-- C7 (amended): when the larger of the cleaned image's dimensions is below
1400, both axes are scaled by the same once-rounded double
`scale = 1400.0 / max(h, w)` and truncated, and the axis carrying the larger
dimension becomes 1400 or — when the two double roundings fall just short of
1400 — 1399, never anything else; images whose larger dimension is already at
least 1400 are not resized. -/
theorem preprocess_resize_amended (h w : ℕ) (hh : 0 < h) (hw : 0 < w) :
    (max h w < 1400 →
      (h ≤ w → (preprocessSize h w).2 = 1400 ∨ (preprocessSize h w).2 = 1399) ∧
      (w ≤ h → (preprocessSize h w).1 = 1400 ∨ (preprocessSize h w).1 = 1399)) ∧
    (1400 ≤ max h w → preprocessSize h w = (h, w)) := by
  constructor
  · intro hlt
    constructor
    · intro hhw
      have hwlt : w < 1400 := lt_of_le_of_lt (le_max_right h w) hlt
      have hval : (preprocessSize h w).2 =
          (Int.floor (fl53 ((w : ℚ) * fl53 (1400 / (w : ℚ))))).toNat := by
        rw [preprocessSize, if_pos hlt, max_eq_right hhw]
      rcases resize_big_axis w hw hwlt with hc | hc
      · right
        rw [hval, hc]
        rfl
      · left
        rw [hval, hc]
        rfl
    · intro hwh
      have hhlt : h < 1400 := lt_of_le_of_lt (le_max_left h w) hlt
      have hval : (preprocessSize h w).1 =
          (Int.floor (fl53 ((h : ℚ) * fl53 (1400 / (h : ℚ))))).toNat := by
        rw [preprocessSize, if_pos hlt, max_eq_left hwh]
      rcases resize_big_axis h hh hhlt with hc | hc
      · right
        rw [hval, hc]
        rfl
      · left
        rw [hval, hc]
        rfl
  · intro hge
    rw [preprocessSize, if_neg (not_lt.mpr hge)]

/-- Witness for C7 (amended): for a 700 by 1000 image the larger axis lands on
1400 or 1399 (it is in fact 1400), and a 1500 by 900 image is left untouched. -/
theorem preprocess_resize_amended_witness :
    ((preprocessSize 700 1000).2 = 1400 ∨ (preprocessSize 700 1000).2 = 1399) ∧
    preprocessSize 1500 900 = (1500, 900) :=
  ⟨((preprocess_resize_amended 700 1000 (by decide) (by decide)).1 (by decide)).1 (by decide),
   (preprocess_resize_amended 1500 900 (by decide) (by decide)).2 (by decide)⟩

/-- C8: when the input image cannot be decoded, the pipeline fails with the
error kind `imageLoad` — distinct from an OCR-engine failure — and the OCR
capability is never invoked (the invocation counter stays at zero), whatever the
preprocessing and OCR collaborators are. -/
theorem extract_image_load_error (pre : Img → Img)
    (ocr : Img → List (List (ℚ × ℚ) × Str × ℚ)) :
    extract_csv_run none pre ocr = (Except.error PipeError.imageLoad, 0) ∧
    PipeError.imageLoad ≠ PipeError.ocrFail :=
  ⟨rfl, by decide⟩

lemma groupLoop_eq_foldl (tol : ℚ) (rest : List Det) :
    ∀ (acc : List (List Det)) (current : List Det) (lastY : ℚ),
      acc ++ groupLoop tol rest current lastY =
        (if (rest.foldl (groupStep tol) (acc, current, lastY)).2.1 = []
         then (rest.foldl (groupStep tol) (acc, current, lastY)).1
         else (rest.foldl (groupStep tol) (acc, current, lastY)).1 ++
              [sortRow (rest.foldl (groupStep tol) (acc, current, lastY)).2.1]) := by
  induction rest with
  | nil =>
    intro acc current lastY
    by_cases h : current = [] <;> simp [groupLoop, h]
  | cons it rest ih =>
    intro acc current lastY
    rw [List.foldl_cons]
    by_cases h : |it.center_y - lastY| ≤ tol
    · rw [groupLoop, if_pos h,
        show groupStep tol (acc, current, lastY) it =
          (acc, current ++ [it], (lastY + it.center_y) / 2) from by
            rw [groupStep, if_pos h]]
      exact ih acc (current ++ [it]) ((lastY + it.center_y) / 2)
    · rw [groupLoop, if_neg h,
        show groupStep tol (acc, current, lastY) it =
          (acc ++ [sortRow current], [it], it.center_y) from by
            rw [groupStep, if_neg h]]
      have := ih (acc ++ [sortRow current]) [it] it.center_y
      rw [← this]
      simp

/-- C4 counterexample: on two detections of heights 10 and 20 whose vertical
centers are 10 apart, `group_rows` puts both in one row (its tolerance is
`max(6, 20 * 0.6) = 12`, the 20 being `sorted(heights)[1]`), whereas a scan
using the statistical median of the heights (15, tolerance 9) would split them
into two rows — so the tolerance is not derived from the median for sequences
with an even number of detections. -/
theorem median_tol_counterexample :
    group_rows [mkDet "a".data 0 10 0, mkDet "b".data 10 20 1] ≠
      groupRowsWithTol
        (max 6 (medianQ ([mkDet "a".data 0 10 0, mkDet "b".data 10 20 1].map Det.height) * (3 / 5)))
        [mkDet "a".data 0 10 0, mkDet "b".data 10 20 1] := by decide

/-- C4 (amended): for every non-empty detection sequence, `group_rows` scans
with the vertical tolerance `max(6.0, median_h * 0.6)` where `median_h` is the
element at index `n // 2` of the ascending-sorted heights — the statistical
median for odd `n`, but the upper of the two middle values for even `n`. -/
theorem group_rows_upper_median_tol (items : List Det) (hne : items ≠ []) :
    group_rows items =
      groupRowsWithTol (max 6 (upperMedian (items.map Det.height) * (3 / 5))) items := by
  cases items with
  | nil => exact absurd rfl hne
  | cons it rest =>
    rw [group_rows, groupRowsWithTol]
    have := groupLoop_eq_foldl (max 6 (upperMedian ((it :: rest).map Det.height) * (3 / 5)))
      rest [] [it] it.center_y
    simpa [upperMedian] using this

/-- Witness for C4 (amended) at a concrete two-detection input. -/
theorem group_rows_upper_median_tol_witness :
    group_rows [mkDet "a".data 0 10 0, mkDet "b".data 10 20 1] =
      groupRowsWithTol
        (max 6 (upperMedian ([mkDet "a".data 0 10 0, mkDet "b".data 10 20 1].map Det.height) * (3 / 5)))
        [mkDet "a".data 0 10 0, mkDet "b".data 10 20 1] :=
  group_rows_upper_median_tol [mkDet "a".data 0 10 0, mkDet "b".data 10 20 1] (by decide)

lemma splitFirstOn_single_none {c : Char} {s : Str}
    (h : splitFirstOn [c] s = none) : c ∉ s := by
  induction s with
  | nil => simp
  | cons a cs ih =>
    rw [splitFirstOn] at h
    by_cases hm : matchesAt [c] (a :: cs) = true
    · rw [if_pos hm] at h
      exact absurd h (by simp)
    · rw [if_neg hm] at h
      have hm' : ¬ c = a := by
        intro he
        exact hm (by simp [matchesAt, he])
      have htail : splitFirstOn [c] cs = none := by
        cases he : splitFirstOn [c] cs with
        | none => rfl
        | some kv => rw [he] at h; exact absurd h (by simp)
      simpa [hm'] using ih htail

lemma mem_of_mem_stripC {a : Char} {s : Str} (h : a ∈ stripC s) : a ∈ s := by
  rw [stripC] at h
  rw [List.mem_reverse] at h
  have h1 := (List.dropWhile_sublist (l := (s.dropWhile isPySpace).reverse) isPySpace).mem h
  rw [List.mem_reverse] at h1
  exact (List.dropWhile_sublist isPySpace).mem h1

lemma endsColon_eq_false_of_notMem {s : Str} (h : ':' ∉ s) : endsColon s = false := by
  rw [endsColon]
  cases hl : s.getLast? with
  | none => rfl
  | some a =>
    have ha : a ∈ s := List.mem_of_getLast?_eq_some hl
    by_cases he : a = ':'
    · exact absurd (he ▸ ha) h
    · simp [he]

lemma singleRule_eq_amended (s : Str) :
    (if (splitKeyValue s).1 ≠ [] ∧ ((splitKeyValue s).2 ≠ [] ∨ endsColon (splitKeyValue s).1)
     then [rstripColon (splitKeyValue s).1, (splitKeyValue s).2]
     else [s]) = singleCellAmended s := by
  rw [splitKeyValue, singleCellAmended]
  cases h1 : splitFirstOn [':'] s with
  | some kv1 => rfl
  | none =>
    rw [trySepsAmended]
    cases h2 : splitFirstOn " - ".data s with
    | some kv2 => rfl
    | none =>
      rw [trySepsAmended]
      cases h3 : splitFirstOn " — ".data s with
      | some kv3 => rfl
      | none =>
        rw [trySepsAmended]
        cases h4 : splitFirstOn "–".data s with
        | some kv4 => rfl
        | none =>
          rw [trySepsAmended]
          have hcolon : ':' ∉ stripC s := fun hm =>
            splitFirstOn_single_none h1 (mem_of_mem_stripC hm)
          simp [endsColon_eq_false_of_notMem hcolon]

lemma mergeAux_single (r : List Str) : mergeAux false [r] = [r] := by
  simp [mergeAux]

lemma classifyRow_single (s : Str) :
    classifyRow [s] = singleCellAmended s := by
  rw [classifyRow.eq_def]
  rw [if_neg (by simp [avgLen])]
  exact singleRule_eq_amended s

/-- C3 counterexample: on the single-cell row `":5"` (already normalized) the
code emits the cell unchanged, because the key produced by the split is empty
and `rows_to_csv` additionally requires a non-empty key — whereas the rule as
claimed, lacking that requirement, yields the two-cell row `["", "5"]`. -/
theorem single_cell_claim_counterexample :
    rows_to_csv [[mkDet ":5".data 0 10 0]] ≠
      [singleCellClaim (normalize_cell ":5".data)] := by decide

/-- C3 (amended): for every row consisting of exactly one cell, `rows_to_csv`
attempts a key/value split of the normalized cell on the first `':'` and, when
`':'` is absent, tries the separators `" - "`, `" — "`, `"–"` in that order;
whenever a split succeeds, the key is non-empty, and the value is non-empty or
the key ends with `':'`, it emits `[key without trailing colons, value]`;
otherwise it emits the single cell unchanged. -/
theorem single_cell_rule_amended (t : Str) (b : List (ℚ × ℚ)) (cy cx hh xm : ℚ) :
    rows_to_csv [[⟨t, b, cy, cx, hh, xm⟩]] = [singleCellAmended (normalize_cell t)] := by
  rw [rows_to_csv]
  simp only [List.map_cons, List.map_nil]
  rw [classifyRow_single, mergeAux_single]

lemma wordsAux_no_space (s : Str) :
    ∀ (acc : Str), (∀ c ∈ acc, isPySpace c = false) →
      ∀ w ∈ wordsAux s acc, w ≠ [] ∧ ∀ c ∈ w, isPySpace c = false := by
  induction s with
  | nil =>
    intro acc hacc w hw
    rw [wordsAux] at hw
    by_cases h : acc = []
    · simp [h] at hw
    · rw [if_neg h] at hw
      simp only [List.mem_singleton] at hw
      subst hw
      exact ⟨by simpa using h, fun c hc => hacc c (List.mem_reverse.mp hc)⟩
  | cons c cs ih =>
    intro acc hacc w hw
    rw [wordsAux] at hw
    by_cases hc : isPySpace c
    · rw [if_pos hc] at hw
      by_cases h : acc = []
      · rw [if_pos h] at hw
        exact ih [] (by simp) w hw
      · rw [if_neg h] at hw
        rcases List.mem_cons.mp hw with h1 | h2
        · subst h1
          exact ⟨by simpa using h, fun x hx => hacc x (List.mem_reverse.mp hx)⟩
        · exact ih [] (by simp) w h2
    · rw [if_neg hc] at hw
      refine ih (c :: acc) ?_ w hw
      intro x hx
      rcases List.mem_cons.mp hx with h1 | h2
      · exact h1 ▸ eq_false_of_ne_true hc
      · exact hacc x h2

lemma wordsAux_through_word (w : Str) (hw : ∀ c ∈ w, isPySpace c = false) :
    ∀ (s acc : Str), wordsAux (w ++ s) acc = wordsAux s (w.reverse ++ acc) := by
  induction w with
  | nil => intro s acc; simp
  | cons c w' ih =>
    intro s acc
    have hc : isPySpace c = false := hw c (List.mem_cons_self c w')
    rw [List.cons_append, wordsAux, if_neg (by simp [hc])]
    rw [ih (fun x hx => hw x (List.mem_cons_of_mem _ hx)) s (c :: acc)]
    simp

lemma wordsAux_space_cons {c : Char} (hc : isPySpace c = true) {acc : Str} (hacc : acc ≠ [])
    (s : Str) : wordsAux (c :: s) acc = acc.reverse :: wordsAux s [] := by
  rw [wordsAux, if_pos hc, if_neg hacc]

lemma joinSp_ne_nil {ws : List Str} (hne : ∀ w ∈ ws, w ≠ []) (h : ws ≠ []) :
    joinSp ws ≠ [] := by
  match ws with
  | [] => exact absurd rfl h
  | [w] => exact hne w (List.mem_cons_self w [])
  | w :: w' :: t =>
    have hj : joinSp (w :: w' :: t) = w ++ ' ' :: joinSp (w' :: t) := rfl
    rw [hj]
    simp

lemma pyWords_joinSp : ∀ (ws : List Str),
    (∀ w ∈ ws, w ≠ [] ∧ ∀ c ∈ w, isPySpace c = false) →
    pyWords (joinSp ws) = ws
  | [], _ => rfl
  | [w], h => by
    obtain ⟨hne, hsf⟩ := h w (List.mem_cons_self w [])
    rw [joinSp, pyWords]
    rw [show w = w ++ [] from (List.append_nil w).symm, wordsAux_through_word w hsf [] []]
    rw [wordsAux, if_neg (by simpa using hne)]
    simp
  | w :: w' :: t, h => by
    obtain ⟨hne, hsf⟩ := h w (List.mem_cons_self w (w' :: t))
    have htail : ∀ x ∈ w' :: t, x ≠ [] ∧ ∀ c ∈ x, isPySpace c = false :=
      fun x hx => h x (List.mem_cons_of_mem _ hx)
    have hj : joinSp (w :: w' :: t) = w ++ ' ' :: joinSp (w' :: t) := rfl
    rw [hj, pyWords, wordsAux_through_word w hsf (' ' :: joinSp (w' :: t)) []]
    rw [wordsAux_space_cons (by decide) (by simpa using hne)]
    simp only [List.append_nil, List.reverse_reverse]
    rw [show wordsAux (joinSp (w' :: t)) [] = w' :: t from pyWords_joinSp (w' :: t) htail]

lemma mem_joinSp : ∀ {ws : List Str} {c : Char}, c ∈ joinSp ws →
    c = ' ' ∨ ∃ w ∈ ws, c ∈ w
  | [], c, hc => by simp [joinSp] at hc
  | [w], c, hc => Or.inr ⟨w, List.mem_cons_self w [], hc⟩
  | w :: w' :: t, c, hc => by
    have hj : joinSp (w :: w' :: t) = w ++ ' ' :: joinSp (w' :: t) := rfl
    rw [hj] at hc
    rcases List.mem_append.mp hc with h1 | h2
    · exact Or.inr ⟨w, List.mem_cons_self w (w' :: t), h1⟩
    · rcases List.mem_cons.mp h2 with h3 | h4
      · exact Or.inl h3
      · rcases mem_joinSp h4 with h5 | ⟨x, hx, hcx⟩
        · exact Or.inl h5
        · exact Or.inr ⟨x, List.mem_cons_of_mem _ hx, hcx⟩

lemma joinSp_head_not_space : ∀ {ws : List Str},
    (∀ w ∈ ws, w ≠ [] ∧ ∀ c ∈ w, isPySpace c = false) →
    ∀ c, (joinSp ws).head? = some c → isPySpace c = false
  | [], _, c, hc => by simp [joinSp] at hc
  | [w], h, c, hc => by
    obtain ⟨hne, hsf⟩ := h w (List.mem_cons_self w [])
    match w, hne with
    | a :: w', _ =>
      rw [show joinSp [a :: w'] = a :: w' from rfl] at hc
      simp only [List.head?_cons, Option.some.injEq] at hc
      exact hc ▸ hsf a (List.mem_cons_self a w')
  | w :: w' :: t, h, c, hc => by
    obtain ⟨hne, hsf⟩ := h w (List.mem_cons_self w (w' :: t))
    match w, hne, hsf with
    | a :: x, _, hsf =>
      have hj : joinSp ((a :: x) :: w' :: t) = a :: (x ++ ' ' :: joinSp (w' :: t)) := rfl
      rw [hj] at hc
      simp only [List.head?_cons, Option.some.injEq] at hc
      exact hc ▸ hsf a (List.mem_cons_self a x)

lemma joinSp_getLast_not_space : ∀ {ws : List Str},
    (∀ w ∈ ws, w ≠ [] ∧ ∀ c ∈ w, isPySpace c = false) →
    ∀ c, (joinSp ws).getLast? = some c → isPySpace c = false
  | [], _, c, hc => by simp [joinSp] at hc
  | [w], h, c, hc => by
    obtain ⟨_, hsf⟩ := h w (List.mem_cons_self w [])
    exact hsf c (List.mem_of_getLast?_eq_some hc)
  | w :: w' :: t, h, c, hc => by
    have htail : ∀ x ∈ w' :: t, x ≠ [] ∧ ∀ ch ∈ x, isPySpace ch = false :=
      fun x hx => h x (List.mem_cons_of_mem _ hx)
    have hj : joinSp (w :: w' :: t) = w ++ ' ' :: joinSp (w' :: t) := rfl
    rw [hj, List.getLast?_append] at hc
    have hjoin_ne : joinSp (w' :: t) ≠ [] :=
      joinSp_ne_nil (fun x hx => (htail x hx).1) (List.cons_ne_nil w' t)
    match hjt : joinSp (w' :: t), hjoin_ne with
    | b :: m, _ =>
      rw [hjt, List.getLast?_cons_cons] at hc
      have hlast : (joinSp (w' :: t)).getLast? = some c := by
        rw [hjt]
        have hsome : ((b :: m).getLast?).isSome = true := by
          cases m <;> simp
        match hbm : (b :: m).getLast?, hsome with
        | some d, _ =>
          rw [hbm] at hc
          simpa using hc
      exact joinSp_getLast_not_space htail c hlast

lemma stripC_eq_self {s : Str}
    (h1 : ∀ c, s.head? = some c → isPySpace c = false)
    (h2 : ∀ c, s.getLast? = some c → isPySpace c = false) : stripC s = s := by
  match s with
  | [] => rfl
  | a :: l =>
    have ha : isPySpace a = false := h1 a rfl
    rw [stripC, List.dropWhile_cons, if_neg (by simp [ha])]
    match hrev : (a :: l).reverse with
    | [] => exact absurd hrev (by simp)
    | b :: m =>
      have hb : (a :: l).getLast? = some b := by
        rw [← List.head?_reverse, hrev]
        rfl
      rw [List.dropWhile_cons, if_neg (by simp [h2 b hb])]
      rw [← hrev, List.reverse_reverse]

lemma normalize_cell_joinSp (ws : List Str)
    (hws : ∀ w ∈ ws, w ≠ [] ∧ ∀ c ∈ w, isPySpace c = false) :
    normalize_cell (joinSp ws) = joinSp ws := by
  rw [normalize_cell]
  have hmap : ((joinSp ws).map fun c => if c = ' ' then ' ' else c) = joinSp ws := by
    have hfix : ∀ c ∈ joinSp ws, (if c = ' ' then ' ' else c) = c := by
      intro c hc
      rcases mem_joinSp hc with h | ⟨w, hw, hcw⟩
      · subst h
        rw [if_neg (by decide)]
      · have hcs := (hws w hw).2 c hcw
        have hne : ¬ c = ' ' := by
          intro he
          rw [he] at hcs
          exact absurd hcs (by decide)
        rw [if_neg hne]
    calc (joinSp ws).map (fun c => if c = ' ' then ' ' else c)
        = (joinSp ws).map id := List.map_congr_left hfix
      _ = joinSp ws := List.map_id (joinSp ws)
  rw [hmap]
  rw [stripC_eq_self (joinSp_head_not_space hws) (joinSp_getLast_not_space hws)]
  rw [pyWords_joinSp ws hws]

/-- C9: cell normalization is idempotent — applying `_normalize_cell` to an
already-normalized string returns the identical string. -/
theorem normalize_cell_idempotent (t : Str) :
    normalize_cell (normalize_cell t) = normalize_cell t :=
  normalize_cell_joinSp
    (pyWords (stripC (t.map fun c => if c = ' ' then ' ' else c)))
    (wordsAux_no_space _ [] (by simp))
